import Mathlib

/-!
# Verification of the rampify-mcp response cache and URL resolver core

Shallow embedding of the core components of the rampify-mcp server:
the TTL response cache (`src/services/cache.ts`), the URL/path resolver
(`src/services/url-resolver.ts`), the crawl-tool cache invalidation
(`crawlSite` in `src/tools/crawl-site.ts`) and the local-domain branch of
`getPageSEO` (`src/tools/get-page-seo.ts`, `src/services/local-analyzer.ts`).

The cache and url-resolver service files are not part of the source tree
available here (only their call sites are), so their operations are modelled
from the specification, as noted on each definition.  The crawl-site tool,
the get-page-seo tool and `isLocalDomain` are embedded from the source.
-/

namespace Rampify

/-! ## Cache keys

Modelled from the spec: `generateKey(category, domain, ...discriminators)`
is a deterministic, order-sensitive concatenation of the components with the
`':'` delimiter (the delimiter visible in the call-site patterns
`site-scan:${domain}` and `seo-context:${domain}` of `crawlSite`), with
component boundaries escaped so that two distinct tuples never collide. -/

/-- A delimiter or escape character inside a component is preceded by `'\'`. -/
def escChar (c : Char) : List Char :=
  if c = ':' ∨ c = '\\' then ['\\', c] else [c]

/-- Escape one key component. -/
def escape : List Char → List Char
  | [] => []
  | c :: rest => escChar c ++ escape rest

/-- Join components with the `':'` delimiter. -/
def joinColon : List (List Char) → List Char
  | [] => []
  | [s] => s
  | s :: t :: rest => s ++ ':' :: joinColon (t :: rest)

/-- Key for an ordered list of components: escape each, then join on `':'`. -/
def encodeParts (parts : List (List Char)) : List Char :=
  joinColon (parts.map escape)

/-- Modelled from the spec: `generateKey` of the cache service
(`src/services/cache.ts`, missing from the tree). -/
def generateKey (category domain : String) (discriminators : List String) : String :=
  ⟨encodeParts (category.data :: domain.data :: discriminators.map String.data)⟩

/-- Decoder for `encodeParts`; splits on unescaped `':'` and unescapes. -/
def decodeAux : List Char → List Char → List (List Char)
  | [], acc => [acc.reverse]
  | c :: rest, acc =>
    if c = '\\' then
      match rest with
      | [] => [acc.reverse]
      | d :: rest' => decodeAux rest' (d :: acc)
    else if c = ':' then
      acc.reverse :: decodeAux rest []
    else
      decodeAux rest (c :: acc)

theorem decodeAux_cons_esc (c : Char) (l acc : List Char) :
    decodeAux ('\\' :: c :: l) acc = decodeAux l (c :: acc) := by
  simp [decodeAux]

theorem decodeAux_cons_colon (l acc : List Char) :
    decodeAux (':' :: l) acc = acc.reverse :: decodeAux l [] := by
  cases l with
  | nil => simp [decodeAux]
  | cons d rest => simp [decodeAux]

theorem decodeAux_cons_other (c : Char) (l acc : List Char)
    (h1 : c ≠ ':') (h2 : c ≠ '\\') :
    decodeAux (c :: l) acc = decodeAux l (c :: acc) := by
  cases l with
  | nil => simp [decodeAux, h1, h2]
  | cons d rest => simp [decodeAux, h1, h2]

theorem decodeAux_escape (s : List Char) (r acc : List Char) :
    decodeAux (escape s ++ r) acc = decodeAux r (s.reverse ++ acc) := by
  induction s generalizing acc with
  | nil => simp [escape]
  | cons c s ih =>
    by_cases hc : c = ':' ∨ c = '\\'
    · have he : escape (c :: s) = '\\' :: c :: escape s := by
        simp [escape, escChar, hc]
      rw [he, List.cons_append, List.cons_append, decodeAux_cons_esc, ih]
      simp
    · push_neg at hc
      have he : escape (c :: s) = c :: escape s := by
        simp [escape, escChar, hc.1, hc.2]
      rw [he, List.cons_append, decodeAux_cons_other c _ _ hc.1 hc.2, ih]
      simp

theorem decode_encodeParts (s : List Char) (parts : List (List Char)) :
    decodeAux (encodeParts (s :: parts)) [] = s :: parts := by
  induction parts generalizing s with
  | nil =>
    have h := decodeAux_escape s [] []
    simp only [List.append_nil] at h
    simp [encodeParts, joinColon, h, decodeAux]
  | cons t parts ih =>
    have h1 : encodeParts (s :: t :: parts)
        = escape s ++ ':' :: encodeParts (t :: parts) := by
      simp [encodeParts, joinColon]
    rw [h1, decodeAux_escape, decodeAux_cons_colon, ih]
    simp

theorem encodeParts_inj (s₁ s₂ : List Char) (p₁ p₂ : List (List Char))
    (h : encodeParts (s₁ :: p₁) = encodeParts (s₂ :: p₂)) : s₁ :: p₁ = s₂ :: p₂ := by
  have h1 := decode_encodeParts s₁ p₁
  have h2 := decode_encodeParts s₂ p₂
  rw [h] at h1
  rw [h1] at h2
  exact h2

theorem stringData_inj (a b : String) (h : a.data = b.data) : a = b := by
  cases a
  cases b
  exact congrArg String.mk h

/-! ## Response cache

Modelled from the spec: the cache service (`src/services/cache.ts`, missing
from the tree) is an in-memory TTL key/value store.  `CacheEntry` is
`{ value, expiresAt }`; `get` is a lazy-expiry read; `set` overwrites with
`expiresAt = now + ttlSeconds`; `deletePattern` removes every entry whose key
starts with the given pattern string and returns the removed count.
Time is an explicit `Nat` parameter `now` (milliseconds-since-epoch in the
source; only its ordering matters here). -/

structure CacheEntry (α : Type) where
  value : α
  expiresAt : Nat
  deriving DecidableEq, Repr

/-- Cache state: an association list of key/entry bindings (the source's
`Map` keeps at most one binding per key; the operations below preserve
that, but the theorems hold for arbitrary states). -/
def Cache (α : Type) : Type := List (String × CacheEntry α)

instance (α : Type) [DecidableEq α] : DecidableEq (Cache α) :=
  inferInstanceAs (DecidableEq (List (String × CacheEntry α)))

/-- First binding stored for `key`, if any. -/
def findEntry {α : Type} (key : String) : Cache α → Option (CacheEntry α)
  | [] => none
  | (k, e) :: rest => if k = key then some e else findEntry key rest

/-- Drop every binding for `key`. -/
def removeKey {α : Type} (key : String) : Cache α → Cache α
  | [] => []
  | (k, e) :: rest =>
    if k = key then removeKey key rest else (k, e) :: removeKey key rest

/-- Modelled from the spec: `set(key, value, ttlSeconds)` — overwrites any
existing entry for `key` with `expiresAt = now + ttl`. -/
def cacheSet {α : Type} (now : Nat) (key : String) (v : α) (ttl : Nat)
    (c : Cache α) : Cache α :=
  (key, ⟨v, now + ttl⟩) :: removeKey key c

/-- Modelled from the spec: `get(key)` — returns the stored value if present
and `now < expiresAt`; otherwise a miss, evicting the expired entry. -/
def cacheGet {α : Type} (now : Nat) (key : String) (c : Cache α) :
    Option α × Cache α :=
  match findEntry key c with
  | none => (none, c)
  | some e => if now < e.expiresAt then (some e.value, c) else (none, removeKey key c)

/-- `a` begins the list `b` (character-level starts-with test). -/
def startsL : List Char → List Char → Bool
  | [], _ => true
  | _ :: _, [] => false
  | a :: as, b :: bs => a = b && startsL as bs

/-- The key string `s` starts with the pattern string `pat`. -/
def startsWithS (pat s : String) : Bool :=
  startsL pat.data s.data

/-- Modelled from the spec: `deletePattern(pattern)` — removes every entry
whose key starts with `pat`, returning the number removed. -/
def deletePattern {α : Type} (pat : String) : Cache α → Nat × Cache α
  | [] => (0, [])
  | e :: rest =>
    let r := deletePattern pat rest
    if startsWithS pat e.fst then (r.fst + 1, r.snd) else (r.fst, e :: r.snd)

/-! ## Crawl-tool invalidation (embedded from `crawlSite`, the crawl-site
tool source)

After a successful crawl the tool runs
`cache.deletePattern("site-scan:" + domain)` and then
`cache.deletePattern("seo-context:" + domain)`. -/

/-- Cache effect of a successful `crawlSite(domain)`. -/
def crawlInvalidate {α : Type} (domain : String) (c : Cache α) : Cache α :=
  (deletePattern ("seo-context:" ++ domain)
    (deletePattern ("site-scan:" ++ domain) c).snd).snd

/-! ## Local-domain detection and the `getPageSEO` operation trace

`isLocalDomain` is embedded from `src/services/local-analyzer.ts`;
the cache/API operation sequence of `getPageSEO` is embedded from the
get-page-seo tool source, with the backend responses (cache hit,
site resolution success, URL match found) abstracted as oracle booleans. -/

/-- `n` occurs as a contiguous run inside `h` (JS `String.includes`). -/
def subStr (n : List Char) : List Char → Bool
  | [] => n.isEmpty
  | c :: rest => startsL n (c :: rest) || subStr n rest

/-- Embedded from `isLocalDomain` in `src/services/local-analyzer.ts`:
`domain.includes('localhost') || domain.includes('127.0.0.1') ||
domain.startsWith('local.')`. -/
def isLocalDomain (domain : String) : Bool :=
  subStr "localhost".data domain.data ||
  subStr "127.0.0.1".data domain.data ||
  startsL "local.".data domain.data

/-- One observable cache or backend-API operation of a tool handler. -/
inductive ToolOp (α : Type) where
  | cacheGetOp (key : String)
  | cacheSetOp (key : String) (value : α) (ttl : Nat)
  | apiCall (name : String)
  deriving DecidableEq

/-- Apply one traced operation to the cache state (API calls leave it
unchanged; a traced `get` may evict an expired entry). -/
def applyOp {α : Type} (now : Nat) (c : Cache α) : ToolOp α → Cache α
  | ToolOp.cacheGetOp k => (cacheGet now k c).snd
  | ToolOp.cacheSetOp k v ttl => cacheSet now k v ttl c
  | ToolOp.apiCall _ => c

/-- Apply a trace of operations in order. -/
def applyOps {α : Type} (now : Nat) (ops : List (ToolOp α)) (c : Cache α) : Cache α :=
  ops.foldl (applyOp now) c

/-- Cache/API operation trace of `getPageSEO(params)`, embedded from the
get-page-seo tool source.  The local branch returns before any cache or
backend call.  In the production branch the key discriminator is
`url_path || file_path` (the string `"undefined"` stands for the JS
`undefined` reaching `generateKey` when both are absent); `cacheHit`,
`resolveOk` and `matched` are oracles for the cache probe, for
`resolveSiteAndClient` succeeding and for `findMatch` finding a URL. -/
def getPageSEOOps {α : Type} (defaultTtl : Nat) (domain : String)
    (url_path file_path : Option String)
    (cacheHit resolveOk matched : Bool) (result : α) : List (ToolOp α) :=
  if isLocalDomain domain then
    []
  else
    let key := generateKey "seo-context" domain
      [url_path.getD (file_path.getD "undefined")]
    ToolOp.cacheGetOp key ::
      (if cacheHit then []
       else ToolOp.apiCall "resolveSiteAndClient" ::
         (if !resolveOk then []
          else ToolOp.apiCall "getSiteUrls" ::
            (if matched then
              [ToolOp.apiCall "getUrlQueries", ToolOp.apiCall "getSiteQueries"]
             else
              [ToolOp.apiCall "getSiteQueries", ToolOp.apiCall "getSiteUrls"]) ++
            [ToolOp.cacheSetOp key result defaultTtl]))

/-! ## URL / path resolver

Modelled from the spec: `src/services/url-resolver.ts` is missing from the
tree; `resolve` and `findMatch` follow §4.1 of the specification.
Dynamic segments carry the `':'` wildcard marker (as in the spec's
`findMatch('/blog/:slug', …)` examples); file-side dynamic segments use the
bracket syntax `[param]`; recognized routing-convention roots are the
`app`-style and `pages`-style directory trees, optionally under a `src/`
layer. -/

/-- Split a character list on a separator (like JS `String.split`). -/
def splitOnChar (sep : Char) : List Char → List (List Char)
  | [] => [[]]
  | c :: rest =>
    let r := splitOnChar sep rest
    if c = sep then [] :: r
    else
      match r with
      | [] => [[c]]
      | s :: ss => (c :: s) :: ss

/-- Trailing-slash normalization: drop a trailing `'/'` except on the root
path `"/"`. -/
def normL (l : List Char) : List Char :=
  if l ≠ ['/'] ∧ l.getLast? = some '/' then l.dropLast else l

/-- URL path segments after trailing-slash normalization. -/
def segs (p : String) : List (List Char) :=
  splitOnChar '/' (normL p.data)

/-- A segment is a dynamic-segment wildcard when it starts with `':'`. -/
def isWild (seg : List Char) : Bool :=
  match seg with
  | c :: _ => c = ':'
  | [] => false

/-- One candidate segment matches one known segment: either the candidate
segment is a wildcard, or the two are equal. -/
def segMatchB (a b : List Char) : Bool :=
  isWild a || decide (a = b)

/-- The candidate path (possibly containing wildcards) collapses onto the
concrete known path: same segment count, segments matching pointwise. -/
def pathMatch (pat known : String) : Bool :=
  let ps := segs pat
  let ks := segs known
  decide (ps.length = ks.length) && (ps.zip ks).all (fun q => segMatchB q.fst q.snd)

/-- The candidate path contains a dynamic-segment wildcard. -/
def hasWild (p : String) : Bool :=
  (segs p).any isWild

/-- Modelled from the spec: `findMatch(urlPath, knownPaths)` — first an exact
match after trailing-slash normalization; else, for a wildcard candidate,
the unique known path it collapses onto; `none` when zero or several known
paths qualify. -/
def findMatch (urlPath : String) (knownPaths : List String) : Option String :=
  match knownPaths.find? (fun p => decide (normL p.data = normL urlPath.data)) with
  | some p => some p
  | none =>
    if hasWild urlPath then
      match knownPaths.filter (fun p => pathMatch urlPath p) with
      | [m] => some m
      | _ => none
    else none

/-- Coarse trust estimate attached to a resolved URL path. -/
inductive Confidence where
  | high
  | medium
  | low
  deriving DecidableEq, Repr

/-- Result of resolving a file path to a URL path. -/
structure ResolvedPath where
  urlPath : String
  confidence : Confidence
  deriving DecidableEq, Repr

/-- Normalize OS path separators: `'\'` becomes `'/'`. -/
def normalizeSeps (l : List Char) : List Char :=
  l.map (fun c => if c = '\\' then '/' else c)

/-- File-path segments: separators normalized, empty and `"."` segments
dropped. -/
def cleanSegs (fp : String) : List (List Char) :=
  (splitOnChar '/' (normalizeSeps fp.data)).filter
    (fun s => !(s.isEmpty || decide (s = ['.'])))

/-- Strip a recognized `src/` project-root layer. -/
def stripSrc : List (List Char) → List (List Char)
  | [] => []
  | s :: rest => if s = "src".data then rest else s :: rest

/-- Special page-defining filenames of the `app`-style convention that map
to no URL segment. -/
def appSpecial : List (List Char) :=
  ["page".data, "layout".data, "route".data, "index".data]

/-- Special filenames of the `pages`-style convention that map to no URL
segment. -/
def pagesSpecial : List (List Char) :=
  ["index".data]

/-- Drop the file extension (everything from the last `'.'`) of a segment. -/
def dropExt (s : List Char) : List Char :=
  if s.contains '.' then
    ((s.reverse.dropWhile (fun c => !(c == '.'))).drop 1).reverse
  else s

/-- Drop a trailing special filename segment. -/
def dropSpecialLast (special : List (List Char)) (l : List (List Char)) :
    List (List Char) :=
  match l.getLast? with
  | some s => if special.contains s then l.dropLast else l
  | none => l

/-- Replace a bracket-delimited dynamic segment `[param]` with the wildcard
`:param`, recording that a substitution occurred. -/
def mapDynSeg (s : List Char) : List Char × Bool :=
  if s.head? = some '[' ∧ s.getLast? = some ']' then
    (':' :: (s.drop 1).dropLast, true)
  else (s, false)

/-- Join URL segments with a leading `'/'` before each segment. -/
def joinSlash (l : List (List Char)) : List Char :=
  l.foldl (fun acc s => acc ++ '/' :: s) []

/-- The path falls under a recognized routing-convention root (`app` or
`pages`, optionally below a `src/` layer). -/
def underRoot (fp : String) : Bool :=
  match stripSrc (cleanSegs fp) with
  | [] => false
  | root :: _ => decide (root = "app".data ∨ root = "pages".data)

/-- Modelled from the spec: `resolve(filePath)` — normalize separators,
strip a `src/` layer, require a recognized convention root, strip the root,
the extension and special filenames, substitute dynamic segments, join into
a URL path (`"/"` when empty), confidence `medium` when a dynamic segment
was substituted and `high` otherwise. -/
def resolve (filePath : String) : Option ResolvedPath :=
  match stripSrc (cleanSegs filePath) with
  | [] => none
  | root :: rest =>
    if root = "app".data ∨ root = "pages".data then
      let special := if root = "app".data then appSpecial else pagesSpecial
      let rest1 :=
        match rest.getLast? with
        | some lastSeg => rest.dropLast ++ [dropExt lastSeg]
        | none => []
      let rest2 := dropSpecialLast special rest1
      let mapped := rest2.map mapDynSeg
      let hasDyn := mapped.any (fun q => q.snd)
      let path := joinSlash (mapped.map (fun q => q.fst))
      some ⟨if path = [] then "/" else ⟨path⟩,
            if hasDyn then Confidence.medium else Confidence.high⟩
    else none

/-! ## Helper lemmas -/

theorem findEntry_cacheSet_self {α : Type} (now : Nat) (k : String) (v : α)
    (ttl : Nat) (c : Cache α) :
    findEntry k (cacheSet now k v ttl c) = some ⟨v, now + ttl⟩ := by
  simp [cacheSet, findEntry]

theorem findEntry_removeKey_self {α : Type} (k : String) (c : Cache α) :
    findEntry k (removeKey k c) = none := by
  induction c with
  | nil => simp [removeKey, findEntry]
  | cons e rest ih =>
    by_cases h : e.fst = k
    · simpa [removeKey, h] using ih
    · simpa [removeKey, findEntry, h] using ih

theorem deletePattern_eq {α : Type} (pat : String) (c : Cache α) :
    deletePattern pat c
      = ((c.filter (fun e => startsWithS pat e.fst)).length,
         c.filter (fun e => !(startsWithS pat e.fst))) := by
  induction c with
  | nil => simp [deletePattern]
  | cons e rest ih =>
    by_cases h : startsWithS pat e.fst
    · simp [deletePattern, ih, h]
    · simp [deletePattern, ih, h]

/-! ## Claim theorems -/

/-- C1: for every key, `get` never returns a stored entry at or past its
`expiresAt`: whenever every entry stored under the key has
`expiresAt ≤ now`, `get(key)` returns a miss and the key is absent
afterwards, indistinguishable from the key never having been set. -/
theorem cacheGet_expired_is_miss {α : Type} (c : Cache α) (key : String) (now : Nat)
    (h : ∀ e, findEntry key c = some e → e.expiresAt ≤ now) :
    (cacheGet now key c).fst = none ∧
    findEntry key (cacheGet now key c).snd = none := by
  cases hfe : findEntry key c with
  | none => simp [cacheGet, hfe]
  | some e =>
    have hle := h e hfe
    have hnl : ¬ now < e.expiresAt := Nat.not_lt.mpr hle
    simp [cacheGet, hfe, hnl, findEntry_removeKey_self]

theorem cacheGet_expired_is_miss_witness :
    (cacheGet 5 "k" ([("k", ⟨"v", 5⟩)] : Cache String)).fst = none ∧
    findEntry "k" (cacheGet 5 "k" ([("k", ⟨"v", 5⟩)] : Cache String)).snd = none :=
  cacheGet_expired_is_miss [("k", ⟨"v", 5⟩)] "k" 5 (by
    intro e he
    rw [show findEntry "k" ([("k", ⟨"v", 5⟩)] : Cache String)
          = some ⟨"v", 5⟩ from rfl] at he
    obtain rfl := (Option.some.inj he).symm
    decide)

/-- C2: `generateKey` is injective on `(category, domain, discriminators)`
tuples; in particular the keys for `('scan', 'example.com')` and
`('scan', 'example.comX')` differ. -/
theorem generateKey_injective :
    (∀ c₁ d₁ l₁ c₂ d₂ l₂, generateKey c₁ d₁ l₁ = generateKey c₂ d₂ l₂ →
       c₁ = c₂ ∧ d₁ = d₂ ∧ l₁ = l₂) ∧
    generateKey "scan" "example.com" [] ≠ generateKey "scan" "example.comX" [] := by
  constructor
  · intro c₁ d₁ l₁ c₂ d₂ l₂ h
    have hd : encodeParts (c₁.data :: d₁.data :: l₁.map String.data)
        = encodeParts (c₂.data :: d₂.data :: l₂.map String.data) :=
      congrArg String.data h
    have hl := encodeParts_inj _ _ _ _ hd
    have h1 : c₁.data = c₂.data := (List.cons.injEq _ _ _ _ ▸ hl).1
    have hrest := (List.cons.injEq _ _ _ _ ▸ hl).2
    have h2 : d₁.data = d₂.data := (List.cons.injEq _ _ _ _ ▸ hrest).1
    have h3 : l₁.map String.data = l₂.map String.data :=
      (List.cons.injEq _ _ _ _ ▸ hrest).2
    have hinj : Function.Injective String.data := fun a b hab => stringData_inj a b hab
    exact ⟨stringData_inj _ _ h1, stringData_inj _ _ h2,
           List.map_injective_iff.mpr hinj h3⟩
  · decide

theorem generateKey_injective_witness :
    "scan" = "scan" ∧ "example.com" = "example.com" ∧ ([] : List String) = [] :=
  generateKey_injective.1 "scan" "example.com" [] "scan" "example.com" [] rfl

/-- C3: `deletePattern(prefix)` removes exactly the entries whose key starts
with the pattern, leaves every other entry unchanged, and returns the exact
number of entries removed (`0` when none match). -/
theorem deletePattern_spec {α : Type} (pat : String) (c : Cache α) :
    (deletePattern pat c).fst
        = (c.filter (fun e => startsWithS pat e.fst)).length ∧
    (deletePattern pat c).snd
        = c.filter (fun e => !(startsWithS pat e.fst)) := by
  rw [deletePattern_eq]
  exact ⟨rfl, rfl⟩

/-- C4 counterexample: the claim that no previously cached tool response for
the crawled domain survives the crawl is false — a `gsc-insights` entry for
`example.com` (as cached by `getGSCInsights`) is still returned by `get`
after `crawlSite('example.com')` has invalidated its two patterns. -/
theorem crawl_leaves_gsc_entry :
    (cacheGet 0 (generateKey "gsc-insights" "example.com" ["28d", "with-recs"])
      (crawlInvalidate "example.com"
        (cacheSet 0 (generateKey "gsc-insights" "example.com" ["28d", "with-recs"])
          "resp" 300 ([] : Cache String)))).fst = some "resp" := by
  decide

/-- C4 amended: a successful crawl of `domain` invalidates exactly the cache
entries whose key starts with `site-scan:<domain>` or `seo-context:<domain>`;
entries under any other category survive. -/
theorem crawlInvalidate_spec {α : Type} (domain : String) (c : Cache α) :
    crawlInvalidate domain c
      = c.filter (fun e =>
          !(startsWithS ("seo-context:" ++ domain) e.fst) &&
          !(startsWithS ("site-scan:" ++ domain) e.fst)) := by
  unfold crawlInvalidate
  rw [(deletePattern_spec _ _).2, (deletePattern_spec _ _).2, List.filter_filter]

/-- C5: when more than one known path is an equally plausible concretization
of a wildcard candidate (and none matches exactly), `findMatch` returns
`null` rather than guessing; with a single candidate it returns it. -/
theorem findMatch_ambiguous :
    (∀ url known, (∀ p ∈ known, normL p.data ≠ normL url.data) →
       2 ≤ (known.filter (fun p => pathMatch url p)).length →
       findMatch url known = none) ∧
    findMatch "/blog/:slug" ["/blog/hello", "/blog/world"] = none ∧
    findMatch "/blog/:slug" ["/blog/hello"] = some "/blog/hello" := by
  refine ⟨?_, by decide, by decide⟩
  intro url known h1 h2
  have hf : known.find? (fun p => decide (normL p.data = normL url.data)) = none := by
    rw [List.find?_eq_none]
    intro x hx
    simpa using h1 x hx
  by_cases hw : hasWild url
  · cases hfil : known.filter (fun p => pathMatch url p) with
    | nil => simp [findMatch, hf, hw, hfil]
    | cons a tl =>
      cases tl with
      | nil =>
        rw [hfil] at h2
        simp at h2
      | cons b tl2 => simp [findMatch, hf, hw, hfil]
  · simp [findMatch, hf, hw]

theorem findMatch_ambiguous_witness :
    findMatch "/blog/:slug" ["/blog/hello", "/blog/world"] = none :=
  findMatch_ambiguous.1 "/blog/:slug" ["/blog/hello", "/blog/world"]
    (by decide) (by decide)

/-- C6: `findMatch` matches up to trailing-slash normalization, and whenever
a static exact (normalized) match exists the returned path is such an exact
match — a static match always outranks any wildcard-derived one. -/
theorem findMatch_exact :
    (∀ url known p, p ∈ known → normL p.data = normL url.data →
       ∃ q, findMatch url known = some q ∧ normL q.data = normL url.data) ∧
    findMatch "/about" ["/about", "/about/"] = some "/about" ∧
    findMatch "/about/" ["/about"] = some "/about" := by
  refine ⟨?_, by decide, by decide⟩
  intro url known p hp hnorm
  have hsome : (known.find? (fun r => decide (normL r.data = normL url.data))).isSome := by
    rw [List.find?_isSome]
    exact ⟨p, hp, by simpa using hnorm⟩
  obtain ⟨q, hq⟩ := Option.isSome_iff_exists.mp hsome
  have hq' : normL q.data = normL url.data := by
    simpa using List.find?_some hq
  exact ⟨q, by simp [findMatch, hq], hq'⟩

theorem findMatch_exact_witness :
    ∃ q, findMatch "/about" ["/about", "/about/"] = some q ∧
      normL q.data = normL "/about".data :=
  findMatch_exact.1 "/about" ["/about", "/about/"] "/about" (by decide) (by decide)

/-- C7: `set(key, value, ttl)` overwrites any existing entry for the key
with `expiresAt = now + ttl`; after two `set`s on the same key the entry is
governed solely by the second call, and a later `get` cannot observe the
first call's entry. -/
theorem cacheSet_overwrites {α : Type} (c : Cache α) (k : String) (v₁ v₂ : α)
    (t₁ t₂ n₁ n₂ : Nat) :
    findEntry k (cacheSet n₂ k v₂ t₂ (cacheSet n₁ k v₁ t₁ c)) = some ⟨v₂, n₂ + t₂⟩ ∧
    ∀ m, (cacheGet m k (cacheSet n₂ k v₂ t₂ (cacheSet n₁ k v₁ t₁ c))).fst
        = (cacheGet m k (cacheSet n₂ k v₂ t₂ c)).fst := by
  refine ⟨findEntry_cacheSet_self _ _ _ _ _, fun m => ?_⟩
  simp only [cacheGet, findEntry_cacheSet_self]
  by_cases hm : m < n₂ + t₂ <;> simp [hm]

/-- C8: a `get` immediately after `set(key, value, ttl)` (same `now`, positive
ttl) returns the just-written value; once the TTL has elapsed, `get` misses. -/
theorem set_then_get {α : Type} (c : Cache α) (k : String) (v : α)
    (t now : Nat) (h : 0 < t) :
    (cacheGet now k (cacheSet now k v t c)).fst = some v ∧
    ∀ later, now + t ≤ later →
      (cacheGet later k (cacheSet now k v t c)).fst = none := by
  constructor
  · have hlt : now < now + t := Nat.lt_add_of_pos_right h
    simp [cacheGet, findEntry_cacheSet_self, hlt]
  · intro later hl
    have hnl : ¬ later < now + t := Nat.not_lt.mpr hl
    simp [cacheGet, findEntry_cacheSet_self, hnl]

theorem set_then_get_witness :
    (cacheGet 0 "k" (cacheSet 0 "k" "v" 1 ([] : Cache String))).fst = some "v" ∧
    (cacheGet 1 "k" (cacheSet 0 "k" "v" 1 ([] : Cache String))).fst = none :=
  ⟨(set_then_get [] "k" "v" 1 0 (by decide)).1,
   (set_then_get [] "k" "v" 1 0 (by decide)).2 1 (by decide)⟩

/-- C9: for every file path not falling under a recognized routing-convention
root, `resolve` returns `null`; being a total function, it does so silently
for all unrecognized inputs. -/
theorem resolve_unrecognized_null (fp : String) (h : underRoot fp = false) :
    resolve fp = none := by
  unfold underRoot at h
  unfold resolve
  cases hs : stripSrc (cleanSegs fp) with
  | nil => rfl
  | cons root rest =>
    rw [hs] at h
    simp only [decide_eq_false_iff_not] at h
    simp [h]

theorem resolve_unrecognized_null_witness :
    resolve "components/Button.tsx" = none :=
  resolve_unrecognized_null "components/Button.tsx" (by decide)

/-- C10: for every domain containing `localhost` or `127.0.0.1` or starting
with `local.`, `getPageSEO` takes the local-analysis branch and returns
before any cache operation: its operation trace is empty — no `cache.get`,
no `cache.set`, no backend API call — and the cache state is unchanged. -/
theorem getPageSEO_local_skips_cache {α : Type} (dTtl : Nat) (domain : String)
    (up fp : Option String) (hit rok m : Bool) (res : α) (c : Cache α) (now : Nat)
    (h : subStr "localhost".data domain.data = true ∨
         subStr "127.0.0.1".data domain.data = true ∨
         startsL "local.".data domain.data = true) :
    getPageSEOOps dTtl domain up fp hit rok m res = [] ∧
    applyOps now (getPageSEOOps dTtl domain up fp hit rok m res) c = c ∧
    ∀ nm, ToolOp.apiCall nm ∉ getPageSEOOps dTtl domain up fp hit rok m res := by
  have hl : isLocalDomain domain = true := by
    unfold isLocalDomain
    rcases h with h | h | h <;> simp [h]
  refine ⟨by simp [getPageSEOOps, hl], ?_, ?_⟩
  · simp [getPageSEOOps, hl, applyOps]
  · intro nm
    simp [getPageSEOOps, hl]

theorem getPageSEO_local_skips_cache_witness :
    getPageSEOOps 3600 "localhost:3000" none none false false false "r"
        = ([] : List (ToolOp String)) ∧
    applyOps 0 (getPageSEOOps 3600 "localhost:3000" none none false false false "r")
        ([] : Cache String) = [] ∧
    ∀ nm, ToolOp.apiCall nm
        ∉ getPageSEOOps 3600 "localhost:3000" none none false false false ("r" : String) :=
  getPageSEO_local_skips_cache 3600 "localhost:3000" none none false false false
    "r" [] 0 (Or.inl (by decide))

end Rampify
